import Mathlib

/-!
Verification of the pow-crypto-server repository core.

Shallow embedding conventions:
- Go byte slices and strings are modeled as `List Nat` (each element a byte
  value); Go `uint64` / `uint16` values are `Nat` (range hypotheses are added
  where the Go type enforces them); Go `int64` is `Int`.
- The SHA-256 primitive (crypto/sha256, external to the repository) is a
  parameter `H : List Nat -> List Nat` of the PoW definitions; every theorem
  about the PoW module is proved for all `H`, hence in particular for SHA-256.
- Rate limiter identities are `String`, timestamps are `Int` (nanoseconds or
  any fixed unit; only ordering and subtraction are used, exactly as in the
  Go code which compares `now.Sub(t) <= rl.window`).
-/

namespace PowServer

/-! ## Byte-level helpers (encoding/binary, big endian) -/

/-- Big-endian value of a byte list: `binary.BigEndian.Uint64` and friends
fold bytes most-significant first. -/
def beVal (l : List Nat) : Nat :=
  l.foldl (fun a b => a * 256 + b) 0

/-- The 8 bytes written by `binary.BigEndian.PutUint64` (most significant
first). Each position takes the corresponding byte of the value. -/
def u64be (n : Nat) : List Nat :=
  [n / 2 ^ 56 % 256, n / 2 ^ 48 % 256, n / 2 ^ 40 % 256, n / 2 ^ 32 % 256,
   n / 2 ^ 24 % 256, n / 2 ^ 16 % 256, n / 2 ^ 8 % 256, n % 256]

/-- The 2 bytes written by `binary.BigEndian.PutUint16`. -/
def u16be (n : Nat) : List Nat :=
  [n / 256 % 256, n % 256]

/-- Go conversion `uint64(t)` for `t : int64` (twos-complement). -/
def int64ToU64 (t : Int) : Nat :=
  (t % (2 ^ 64 : Int)).toNat

/-- Go conversion `int64(u)` for `u : uint64` (twos-complement). -/
def u64ToInt64 (u : Nat) : Int :=
  if u < 2 ^ 63 then (u : Int) else (u : Int) - 2 ^ 64

theorem beVal_u64be (n : Nat) (h : n < 2 ^ 64) : beVal (u64be n) = n := by
  simp only [beVal, u64be, List.foldl]
  omega

theorem beVal_u16be (n : Nat) (h : n < 2 ^ 16) : beVal (u16be n) = n := by
  simp only [beVal, u16be, List.foldl]
  omega

theorem u64be_length (n : Nat) : (u64be n).length = 8 := rfl

theorem u16be_length (n : Nat) : (u16be n).length = 2 := rfl

theorem int64_roundtrip (t : Int) (h1 : -(2 ^ 63) ≤ t) (h2 : t < 2 ^ 63) :
    u64ToInt64 (int64ToU64 t) = t := by
  simp only [int64ToU64, u64ToInt64]
  omega

theorem int64ToU64_lt (t : Int) : int64ToU64 t < 2 ^ 64 := by
  simp only [int64ToU64]
  omega

/-! ## Protocol message types (internal/protocol) -/

/-- Thirty-two random bytes, the Go array type of 32 bytes. -/
def Bytes32 := { l : List Nat // l.length = 32 }

instance : DecidableEq Bytes32 := fun a b =>
  decidable_of_iff (a.val = b.val) Subtype.ext_iff.symm

instance {ε α : Type} [DecidableEq ε] [DecidableEq α] :
    DecidableEq (Except ε α) := fun a b =>
  match a, b with
  | .ok x, .ok y => decidable_of_iff (x = y) (by simp)
  | .error x, .error y => decidable_of_iff (x = y) (by simp)
  | .ok _, .error _ => isFalse (by simp)
  | .error _, .ok _ => isFalse (by simp)

/-- protocol.ChallengeResponse. `Difficulty` is a Go `int` (the claims range
over `[0, 256]`, so nonnegative values are modeled); `Timestamp` is `int64`;
`RandomData` is `[32]byte`; `ClientIP` is a Go string (byte list). -/
structure ChallengeResponse where
  difficulty : Nat
  timestamp : Int
  randomData : Bytes32
  clientIP : List Nat
deriving DecidableEq

/-- protocol.Solution (`Nonce uint64`). -/
structure Solution where
  nonce : Nat
deriving DecidableEq

/-- protocol.Quote (`Text string`). -/
structure Quote where
  text : List Nat
deriving DecidableEq

/-- protocol.Error (`Code uint16`, `Message string`). -/
structure ErrorMsg where
  code : Nat
  message : List Nat
deriving DecidableEq

/-! ## Codec (internal/protocol/codec.go) -/

/-- EncodeChallengeResponse: `[1: difficulty][8: timestamp][32: random][N: ip]`.
`buf[0] = byte(cr.Difficulty)` truncates the Go int to one byte, hence `% 256`. -/
def encodeChallengeResponse (cr : ChallengeResponse) : List Nat :=
  [cr.difficulty % 256] ++ u64be (int64ToU64 cr.timestamp) ++
    cr.randomData.val ++ cr.clientIP

/-- DecodeChallengeResponse: rejects payloads shorter than 41 bytes, then
reads difficulty, timestamp, random data and client IP at fixed offsets.
When the payload is exactly 41 bytes the Go code leaves `ClientIP` as the
empty string, which coincides with `p.drop 41 = []`. -/
def decodeChallengeResponse (p : List Nat) : Except String ChallengeResponse :=
  if h : p.length < 41 then
    .error "invalid payload length: expected at least 41"
  else
    .ok { difficulty := p.getD 0 0
          timestamp := u64ToInt64 (beVal ((p.drop 1).take 8))
          randomData := ⟨(p.drop 9).take 32, by
            simp only [List.length_take, List.length_drop]
            omega⟩
          clientIP := p.drop 41 }

/-- EncodeSolution: 8 bytes, big-endian nonce. -/
def encodeSolution (s : Solution) : List Nat :=
  u64be s.nonce

/-- DecodeSolution: errors unless the payload is exactly 8 bytes, otherwise
reads the nonce as a big-endian uint64. -/
def decodeSolution (p : List Nat) : Except String Solution :=
  if p.length ≠ 8 then
    .error "invalid payload length: expected 8"
  else
    .ok { nonce := beVal p }

/-- EncodeQuote: the UTF-8 bytes of the text. -/
def encodeQuote (q : Quote) : List Nat := q.text

/-- DecodeQuote: always succeeds. -/
def decodeQuote (p : List Nat) : Except String Quote := .ok { text := p }

/-- EncodeError: `[2: code][N: message]`. -/
def encodeError (e : ErrorMsg) : List Nat :=
  u16be e.code ++ e.message

/-- DecodeError: rejects payloads shorter than 2 bytes, then reads the code
big-endian and the message as the remaining bytes (empty when the payload is
exactly 2 bytes, as in the Go code which leaves `Message` empty). -/
def decodeError (p : List Nat) : Except String ErrorMsg :=
  if p.length < 2 then
    .error "invalid payload length: expected at least 2"
  else
    .ok { code := beVal (p.take 2), message := p.drop 2 }

/-! ## Framed reader (ReadMessage) -/

/-- A wire message: one type byte plus a payload. -/
structure MessageW where
  type : Nat
  payload : List Nat
deriving DecidableEq

/-- The distinct failure modes of `ReadMessage`: a short read (EOF from
`binary.Read` or `io.ReadFull`) versus the explicit size rejection
`payload too large`. -/
inductive ReadErr where
  | eof : ReadErr
  | tooLarge : Nat → ReadErr
deriving DecidableEq

/-- ReadMessage over an input byte stream: reads 1 type byte, 4 big-endian
length bytes, rejects a declared length above `1024*1024` BEFORE attempting
to read (or allocate) the payload, then reads exactly `len` payload bytes.
Returns the message and the unconsumed remainder of the stream. -/
def readMessage : List Nat → Except ReadErr (MessageW × List Nat)
  | t :: b3 :: b2 :: b1 :: b0 :: rest =>
    let len := ((b3 * 256 + b2) * 256 + b1) * 256 + b0
    if 1024 * 1024 < len then .error (.tooLarge len)
    else if rest.length < len then .error .eof
    else .ok (⟨t, rest.take len⟩, rest.drop len)
  | _ => .error .eof

/-! ## PoW challenge module (internal/pow/hashcash.go)

Strings are byte lists. The byte 58 is the ASCII colon used as separator in
the canonical form; 45 is the ASCII minus sign; 48..57 are the digits. -/

/-- Decimal digits of `n` (ASCII), most significant first, via repeated
division; `fuel` dominates the recursion depth (`n ≤ fuel` suffices). -/
def natDecAux : Nat → Nat → List Nat
  | 0, _ => []
  | fuel + 1, n =>
    if n = 0 then []
    else natDecAux fuel (n / 10) ++ [n % 10 + 48]

/-- Go `fmt` rendering `%d` of an unsigned integer: unsigned decimal, no
leading zeros, no sign; `0` renders as the single digit `0`. -/
def natDecimal (n : Nat) : List Nat :=
  if n = 0 then [48] else natDecAux n n

/-- Go `fmt` rendering `%d` of an int64: a minus sign followed by the digits
for negative values, plain digits otherwise. -/
def intDecimal (t : Int) : List Nat :=
  if t < 0 then 45 :: natDecimal (-t).toNat else natDecimal t.toNat

/-- The character (byte) of the standard base64 alphabet at index `i < 64`.
A-Z, a-z, 0-9, `+`, `/`. -/
def b64char (i : Nat) : Nat :=
  if i < 26 then 65 + i
  else if i < 52 then 97 + (i - 26)
  else if i < 62 then 48 + (i - 52)
  else if i = 62 then 43
  else 47

/-- The Go standard base64 encoding: standard alphabet, `=` padding
(byte 61). -/
def base64Encode : List Nat → List Nat
  | b0 :: b1 :: b2 :: rest =>
    [b64char (b0 / 4), b64char (b0 % 4 * 16 + b1 / 16),
     b64char (b1 % 16 * 4 + b2 / 64), b64char (b2 % 64)] ++ base64Encode rest
  | [b0, b1] =>
    [b64char (b0 / 4), b64char (b0 % 4 * 16 + b1 / 16),
     b64char (b1 % 16 * 4), 61]
  | [b0] =>
    [b64char (b0 / 4), b64char (b0 % 4 * 16), 61, 61]
  | [] => []

/-- pow.Challenge: 32 random bytes, a unix timestamp (int64), the client IP
string, and the difficulty (a Go int, hence `Int`). -/
structure Challenge where
  data : Bytes32
  timestamp : Int
  clientIP : List Nat
  difficulty : Int
deriving DecidableEq

/-- Challenge.String: `fmt.Sprintf("%s:%d:%s", base64(data), timestamp, ip)`. -/
def challengeString (c : Challenge) : List Nat :=
  base64Encode c.data.val ++ [58] ++ intDecimal c.timestamp ++ [58] ++ c.clientIP

/-- Challenge.ComputeHash: SHA-256 of `fmt.Sprintf("%s:%d", c.String(), nonce)`;
the SHA-256 primitive is the parameter `H`. The nonce is a uint64, rendered
in unsigned decimal. -/
def computeHash (H : List Nat → List Nat) (c : Challenge) (nonce : Nat) :
    List Nat :=
  H (challengeString c ++ [58] ++ natDecimal nonce)

/-- The inner bit loop of CountLeadingZeroBits: for each bit index in `is`
(the Go code iterates 7 down to 0), a zero bit increments the count and a set
bit returns it (`true` marks the early return, `false` that the loop ran out). -/
def innerCount (b : Nat) : List Nat → Nat → Bool × Nat
  | [], c => (false, c)
  | i :: is, c =>
    if b &&& (1 <<< i) = 0 then innerCount b is (c + 1) else (true, c)

/-- The outer byte loop of CountLeadingZeroBits: a zero byte adds 8 and
continues; otherwise the inner loop either returns or (when every tested bit
is zero) falls through to the next byte, exactly as the Go `for` loops do. -/
def clzOuter : List Nat → Nat → Nat
  | [], c => c
  | b :: rest, c =>
    if b = 0 then clzOuter rest (c + 8)
    else
      match innerCount b [7, 6, 5, 4, 3, 2, 1, 0] c with
      | (true, r) => r
      | (false, r) => clzOuter rest r

/-- pow.CountLeadingZeroBits on a byte list. -/
def countLeadingZeroBits (hash : List Nat) : Nat :=
  clzOuter hash 0

/-- pow.Verify: false when the presented identity differs from the stored
client IP; otherwise compares the leading-zero-bit count of the digest (a Go
int) with the difficulty. -/
def verify (H : List Nat → List Nat) (c : Challenge) (nonce : Nat)
    (clientIP : List Nat) : Bool :=
  if c.clientIP ≠ clientIP then false
  else c.difficulty ≤ (countLeadingZeroBits (computeHash H c nonce) : Int)

/-- The nonce search loop of pow.Solve: tries `fuel` consecutive nonces
starting at `n`, returning the first that meets the difficulty. -/
def solveAux (H : List Nat → List Nat) (c : Challenge) :
    Nat → Nat → Except String Nat
  | 0, _ => .error "no solution found"
  | fuel + 1, n =>
    if c.difficulty ≤ (countLeadingZeroBits (computeHash H c n) : Int) then
      .ok n
    else solveAux H c fuel (n + 1)

/-- pow.Solve: `for nonce := range ^uint64(0)` iterates the nonces
`0, 1, ..., 2^64 - 2` (Go `range` over an integer `k` yields `k` values), so
the search tries exactly `2^64 - 1` nonces starting at 0. -/
def solve (H : List Nat → List Nat) (c : Challenge) : Except String Nat :=
  solveAux H c (2 ^ 64 - 1) 0

/-! Spec-side definitions for the PoW claims. -/

/-- Modelled from the spec: the canonical verification input
`base64_std(random256) || ":" || decimal(unixSeconds) || ":" || identity
|| ":" || decimal(nonce)` written as one concatenation. -/
def canonicalForm (c : Challenge) (nonce : Nat) : List Nat :=
  base64Encode c.data.val ++ [58] ++ intDecimal c.timestamp ++ [58] ++
    c.clientIP ++ [58] ++ natDecimal nonce

/-- Modelled from the spec: the count of high-order zero bits of a single
byte (8 for a zero byte). -/
def byteHighZeros (b : Nat) : Nat :=
  if 128 ≤ b then 0
  else if 64 ≤ b then 1
  else if 32 ≤ b then 2
  else if 16 ≤ b then 3
  else if 8 ≤ b then 4
  else if 4 ≤ b then 5
  else if 2 ≤ b then 6
  else if 1 ≤ b then 7
  else 8

/-- Modelled from the spec: 8 bits for every leading all-zero byte, plus the
high-order zero bits of the first non-zero byte (0 when there is none, i.e.
on the all-zero digest). -/
def leadingZeroBitsSpec (d : List Nat) : Nat :=
  8 * (d.takeWhile (fun b => b = 0)).length +
    (match d.dropWhile (fun b => b = 0) with
     | [] => 0
     | b :: _ => byteHighZeros b)

/-! ## Rate limiter (internal/server, sliding window)

The Go map `map[string][]time.Time` is modeled as a total function from
identities to timestamp lists: reading a missing key yields `nil = []`, and
deleting a key is indistinguishable (to every reader) from storing `[]`.
Timestamps and the window are `Int`; the Go code keeps a timestamp `t` iff
`now.Sub(t) <= rl.window`. -/

/-- The rate limiter map state. -/
def RLState := String → List Int

/-- The empty map a fresh rate limiter starts with. -/
def rlInit : RLState := fun _ => []

/-- The eviction filter shared by Allow and cleanup: keep `t` iff
`now - t <= window`. -/
def evict (w now : Int) (l : List Int) : List Int :=
  l.filter (fun t => decide (now - t ≤ w))

/-- RateLimiter.Allow: filter the timestamps of the identity through the window,
deny (leaving the map untouched) when at least `maxReq` remain, otherwise
append `now` and store the filtered list. -/
def rlAllow (w : Int) (maxReq : Nat) (s : RLState) (ip : String) (now : Int) :
    Bool × RLState :=
  let valid := evict w now (s ip)
  if maxReq ≤ valid.length then (false, s)
  else (true, fun j => if j = ip then valid ++ [now] else s j)

/-- RateLimiter.cleanup: evict expired timestamps for every identity and drop
identities whose lists become empty (dropping a key and storing `[]` coincide
in the total-function model). -/
def rlCleanup (w : Int) (s : RLState) (now : Int) : RLState :=
  fun ip => evict w now (s ip)

/-- One externally visible rate limiter call: an `Allow` from some identity,
or a run of the background `cleanup`, each carrying the `now()` it observes. -/
inductive RLEvent where
  | allow : String → Int → RLEvent
  | cleanup : Int → RLEvent

/-- The time at which an event occurs. -/
def RLEvent.time : RLEvent → Int
  | .allow _ t => t
  | .cleanup t => t

/-- Run a sequence of events; the result list records, for every Allow event
in order, the identity, the time, and the boolean the call returned. -/
def rlRun (w : Int) (maxReq : Nat) (s : RLState) :
    List RLEvent → RLState × List (String × Int × Bool)
  | [] => (s, [])
  | .allow ip t :: es =>
    let r := rlAllow w maxReq s ip t
    let rest := rlRun w maxReq r.2 es
    (rest.1, (ip, t, r.1) :: rest.2)
  | .cleanup t :: es => rlRun w maxReq (rlCleanup w s t) es

/-- The times at which `ip` was admitted, in call order. -/
def grantsOf (ip : String) : List (String × Int × Bool) → List Int
  | [] => []
  | (j, t, b) :: rest =>
    if b = true ∧ j = ip then t :: grantsOf ip rest else grantsOf ip rest

/-- How many of the recorded timestamps lie within the window ending at
`now` (the count Allow compares against `maxReq`). -/
def countRecent (w now : Int) (l : List Int) : Nat :=
  l.countP (fun t => decide (now - t ≤ w))

/-- A grant list is well spaced when, at each grant, fewer than `maxReq` of
the earlier grants were still inside the window. -/
def spaced (w : Int) (maxReq : Nat) (g : List Int) : Prop :=
  ∀ l1 u l2, g = l1 ++ u :: l2 → (evict w u l1).length < maxReq

/-! ## Concrete values used by witnesses and counterexamples -/

/-- The all-zero 32-byte array. -/
def zeros32 : Bytes32 := ⟨List.replicate 32 0, by simp⟩

/-- The solving predicate of pow.Solve and pow.Verify: the digest of
`(c, n)` has at least `c.difficulty` leading zero bits. -/
abbrev solves (H : List Nat → List Nat) (c : Challenge) (n : Nat) : Prop :=
  c.difficulty ≤ (countLeadingZeroBits (computeHash H c n) : Int)

/-- The numeric value of a decimal digit string (inverse of `natDecimal`). -/
def decValue (l : List Nat) : Nat :=
  l.foldl (fun a d => a * 10 + (d - 48)) 0

/-- A challenge of difficulty 1 used to exhibit the search bound of the solver. -/
def cxChallenge : Challenge :=
  { data := zeros32, timestamp := 0, clientIP := [], difficulty := 1 }

/-- A hash function under which the one nonce pow.Solve never tries,
`2^64 - 1`, is the unique solution: it maps the canonical form of that nonce
to the all-zero digest and everything else to a digest starting `0x80`. -/
def cxHash : List Nat → List Nat := fun s =>
  if s = canonicalForm cxChallenge (2 ^ 64 - 1) then List.replicate 32 0
  else [128]

/-- A trivial hash (constant empty digest) for solver witnesses. -/
def trivHash : List Nat → List Nat := fun _ => []

/-- A difficulty-0 challenge every nonce solves. -/
def easyChallenge : Challenge :=
  { data := zeros32, timestamp := 0, clientIP := [], difficulty := 0 }

/-- A rate limiter state with one recorded timestamp for identity `a`. -/
def rlOneShot : RLState := fun j => if j = "a" then [0] else []

/-! ## Theorems: wire codec claims -/

/-- C9: DecodeSolution(payload) errors if and only if the payload length
differs from 8; on an 8-byte payload it returns the nonce read as an 8-byte
big-endian unsigned integer; EncodeSolution always produces exactly 8 bytes. -/
theorem decodeSolution_length_spec :
    (∀ p : List Nat, (∃ e, decodeSolution p = .error e) ↔ p.length ≠ 8)
    ∧ (∀ p : List Nat, p.length = 8 → decodeSolution p = .ok { nonce := beVal p })
    ∧ (∀ s : Solution, (encodeSolution s).length = 8) := by
  refine ⟨fun p => ?_, fun p hp => ?_, fun s => rfl⟩
  · unfold decodeSolution
    by_cases h : p.length = 8
    · simp [h]
    · simp [h]
  · unfold decodeSolution
    simp [hp]

/-- Witness for C9: a concrete 8-byte payload decodes to its big-endian
value, by the theorem applied at that payload. -/
theorem decodeSolution_length_spec_witness :
    decodeSolution [0, 0, 0, 0, 0, 0, 1, 4] = .ok { nonce := 260 } :=
  decodeSolution_length_spec.2.1 [0, 0, 0, 0, 0, 0, 1, 4] rfl

/-- C6: ReadMessage rejects every frame whose declared payload length
exceeds 1 MiB with the dedicated size error, before looking at (or
allocating for) any payload byte: the rejection is independent of the rest
of the stream, which may even be empty. A declared length of zero is
accepted and yields an empty payload. -/
theorem readMessage_bound_spec :
    (∀ (t b3 b2 b1 b0 : Nat) (rest : List Nat),
        1024 * 1024 < ((b3 * 256 + b2) * 256 + b1) * 256 + b0 →
        readMessage (t :: b3 :: b2 :: b1 :: b0 :: rest) =
          .error (.tooLarge (((b3 * 256 + b2) * 256 + b1) * 256 + b0)))
    ∧ (∀ (t : Nat) (rest : List Nat),
        readMessage (t :: 0 :: 0 :: 0 :: 0 :: rest) =
          .ok ({ type := t, payload := [] }, rest)) := by
  constructor
  · intro t b3 b2 b1 b0 rest h
    simp only [readMessage]
    rw [if_pos h]
  · intro t rest
    simp [readMessage]

/-- Witness for C6: the oversized-frame scenario of the spec (declared
length `2^30`) is rejected even with zero bytes of payload available, and a
zero-length frame is accepted. -/
theorem readMessage_bound_spec_witness :
    readMessage [4, 64, 0, 0, 0] = .error (.tooLarge 1073741824)
    ∧ readMessage [1, 0, 0, 0, 0] = .ok ({ type := 1, payload := [] }, []) :=
  ⟨readMessage_bound_spec.1 4 64 0 0 0 [] (by decide),
   readMessage_bound_spec.2 1 []⟩

/-- C3 counterexample: the claim ranges over every difficulty in `[0, 256]`,
but difficulty 256 is truncated by the single-byte field: decoding the
encoding of a ChallengeResponse with difficulty 256 yields difficulty 0,
not a structurally equal message. -/
theorem roundTrip_difficulty256_counterexample :
    decodeChallengeResponse (encodeChallengeResponse
        { difficulty := 256, timestamp := 0, randomData := zeros32,
          clientIP := [] }) ≠
      .ok { difficulty := 256, timestamp := 0, randomData := zeros32,
            clientIP := [] } := by
  decide

/-- C3 (amended): decode is a left inverse of encode for every message
variant — Solution, Quote, Error, and ChallengeResponse with difficulty in
`[0, 255]` (the one-byte wire field cannot carry 256); empty strings, zero
nonces and all-zero random bytes are preserved. -/
theorem codec_roundTrip :
    (∀ cr : ChallengeResponse, cr.difficulty < 256 →
        -(2 ^ 63) ≤ cr.timestamp → cr.timestamp < 2 ^ 63 →
        decodeChallengeResponse (encodeChallengeResponse cr) = .ok cr)
    ∧ (∀ s : Solution, s.nonce < 2 ^ 64 →
        decodeSolution (encodeSolution s) = .ok s)
    ∧ (∀ q : Quote, decodeQuote (encodeQuote q) = .ok q)
    ∧ (∀ e : ErrorMsg, e.code < 2 ^ 16 →
        decodeError (encodeError e) = .ok e) := by
  refine ⟨?_, ?_, fun q => rfl, ?_⟩
  · rintro ⟨d, ts, ⟨rd, hrd⟩, ip⟩ hd h1 h2
    set p := encodeChallengeResponse
        { difficulty := d, timestamp := ts, randomData := ⟨rd, hrd⟩,
          clientIP := ip } with hp
    have hsplit : p = d % 256 :: (u64be (int64ToU64 ts) ++ (rd ++ ip)) := by
      simp [hp, encodeChallengeResponse]
    have htail : (d % 256 :: (u64be (int64ToU64 ts) ++ (rd ++ ip))).drop 1 =
        u64be (int64ToU64 ts) ++ (rd ++ ip) := rfl
    have hlen : p.length = 41 + ip.length := by
      rw [hsplit]
      simp [u64be]
      omega
    have e1 : p.getD 0 0 = d := by
      rw [hsplit, List.getD_cons_zero]
      exact Nat.mod_eq_of_lt hd
    have e2 : u64ToInt64 (beVal ((p.drop 1).take 8)) = ts := by
      rw [hsplit, htail, List.take_left' (u64be_length _),
        beVal_u64be _ (int64ToU64_lt ts)]
      exact int64_roundtrip ts h1 h2
    have hdrop9 : p.drop 9 = rd ++ ip := by
      have h9 : (9 : Nat) = 1 + 8 := rfl
      rw [hsplit, h9, ← List.drop_drop, htail]
      exact List.drop_left' (u64be_length _)
    have e3 : (p.drop 9).take 32 = rd := by
      rw [hdrop9]
      exact List.take_left' hrd
    have e4 : p.drop 41 = ip := by
      have h41 : (41 : Nat) = 9 + 32 := rfl
      rw [h41, ← List.drop_drop, hdrop9]
      exact List.drop_left' hrd
    unfold decodeChallengeResponse
    rw [dif_neg (by omega)]
    simp only [Except.ok.injEq, ChallengeResponse.mk.injEq]
    exact ⟨e1, e2, Subtype.ext e3, e4⟩
  · rintro ⟨n⟩ hn
    unfold decodeSolution encodeSolution
    rw [if_neg (by simp [u64be_length])]
    simp [beVal_u64be n hn]
  · rintro ⟨code, msg⟩ hc
    unfold decodeError encodeError
    rw [if_neg (by simp [u16be_length])]
    have ht : (u16be code ++ msg).take 2 = u16be code :=
      List.take_left' (u16be_length _)
    have hd : (u16be code ++ msg).drop 2 = msg :=
      List.drop_left' (u16be_length _)
    simp only [ht, hd, beVal_u16be code hc]

/-- Witness for C3: one concrete message of each variant round-trips, by the
amended theorem applied at those messages. -/
theorem codec_roundTrip_witness :
    decodeChallengeResponse (encodeChallengeResponse
        { difficulty := 4, timestamp := -7, randomData := zeros32,
          clientIP := [49, 46, 50] }) =
      .ok { difficulty := 4, timestamp := -7, randomData := zeros32,
            clientIP := [49, 46, 50] }
    ∧ decodeSolution (encodeSolution { nonce := 0 }) = .ok { nonce := 0 }
    ∧ decodeQuote (encodeQuote { text := [] }) = .ok { text := [] }
    ∧ decodeError (encodeError { code := 3, message := [] }) =
        .ok { code := 3, message := [] } :=
  ⟨codec_roundTrip.1 _ (by decide) (by decide) (by decide),
   codec_roundTrip.2.1 _ (by decide),
   codec_roundTrip.2.2.1 _,
   codec_roundTrip.2.2.2 _ (by decide)⟩

/-! ## Theorems: leading-zero-bit counting -/

theorem innerCount_shift (b : Nat) (is : List Nat) :
    ∀ c, innerCount b is c = ((innerCount b is 0).1, c + (innerCount b is 0).2) := by
  induction is with
  | nil => intro c; simp [innerCount]
  | cons i is ih =>
    intro c
    by_cases h : b &&& (1 <<< i) = 0
    · simp only [innerCount, if_pos h]
      rw [ih (c + 1), ih 1]
      simp
      omega
    · simp [innerCount, if_neg h]

set_option maxRecDepth 4096 in
theorem innerCount_byte :
    ∀ b < 256, b ≠ 0 →
      innerCount b [7, 6, 5, 4, 3, 2, 1, 0] 0 = (true, byteHighZeros b) := by
  decide

theorem byteHighZeros_le (b : Nat) : byteHighZeros b ≤ 8 := by
  unfold byteHighZeros
  split_ifs <;> omega

theorem clzOuter_eq_spec :
    ∀ d : List Nat, (∀ b ∈ d, b < 256) →
      ∀ c, clzOuter d c = c + leadingZeroBitsSpec d := by
  intro d
  induction d with
  | nil => intro _ c; simp [clzOuter, leadingZeroBitsSpec]
  | cons b rest ih =>
    intro hb c
    by_cases h0 : b = 0
    · subst h0
      have hrest : ∀ x ∈ rest, x < 256 := fun x hx => hb x (List.mem_cons_of_mem _ hx)
      simp only [clzOuter, if_pos rfl, ih hrest]
      simp [leadingZeroBitsSpec, List.takeWhile_cons, List.dropWhile_cons]
      omega
    · have hic : innerCount b [7, 6, 5, 4, 3, 2, 1, 0] c = (true, c + byteHighZeros b) := by
        rw [innerCount_shift, innerCount_byte b (hb b (List.mem_cons_self b rest)) h0]
      simp only [clzOuter, if_neg h0, hic]
      simp [leadingZeroBitsSpec, List.takeWhile_cons, List.dropWhile_cons, h0]

theorem leadingZeroBitsSpec_le (d : List Nat) :
    leadingZeroBitsSpec d ≤ 8 * d.length := by
  induction d with
  | nil => simp [leadingZeroBitsSpec]
  | cons b rest ih =>
    by_cases h0 : b = 0
    · subst h0
      simp only [leadingZeroBitsSpec, List.takeWhile_cons, List.dropWhile_cons] at ih ⊢
      simp at ih ⊢
      omega
    · simp only [leadingZeroBitsSpec, List.takeWhile_cons, List.dropWhile_cons]
      simp [h0]
      have := byteHighZeros_le b
      omega

/-- C5: on a 32-byte digest the count is at most 256 and equals 8 per
leading zero byte plus the high-order zero bits of the first non-zero byte
(the function takes no difficulty and never short-circuits on it); the five
digests listed in the spec yield 256, 0, 8, 7 and 4. -/
theorem countLeadingZeroBits_spec :
    (∀ d : List Nat, d.length = 32 → (∀ b ∈ d, b < 256) →
        countLeadingZeroBits d ≤ 256
        ∧ countLeadingZeroBits d = leadingZeroBitsSpec d)
    ∧ countLeadingZeroBits (List.replicate 32 0) = 256
    ∧ countLeadingZeroBits (128 :: List.replicate 31 0) = 0
    ∧ countLeadingZeroBits (0 :: 128 :: List.replicate 30 0) = 8
    ∧ countLeadingZeroBits (1 :: List.replicate 31 0) = 7
    ∧ countLeadingZeroBits (15 :: List.replicate 31 0) = 4 := by
  refine ⟨fun d hlen hb => ⟨?_, ?_⟩, by decide, by decide, by decide, by decide, by decide⟩
  · have h := clzOuter_eq_spec d hb 0
    have h2 := leadingZeroBitsSpec_le d
    unfold countLeadingZeroBits
    omega
  · have h := clzOuter_eq_spec d hb 0
    unfold countLeadingZeroBits
    omega

/-- Witness for C5: the all-zero digest instantiates the quantified part of
the theorem; both conjuncts evaluate on it. -/
theorem countLeadingZeroBits_spec_witness :
    countLeadingZeroBits (List.replicate 32 0) ≤ 256
    ∧ countLeadingZeroBits (List.replicate 32 0) =
        leadingZeroBitsSpec (List.replicate 32 0) :=
  countLeadingZeroBits_spec.1 (List.replicate 32 0) (by decide) (by decide)

/-! ## Theorems: challenge verification and canonical form -/

theorem computeHash_eq_canonical (H : List Nat → List Nat) (c : Challenge)
    (n : Nat) : computeHash H c n = H (canonicalForm c n) := by
  simp [computeHash, challengeString, canonicalForm]

/-- C1: Verify returns true exactly when the presented identity equals the
client IP of the challenge and the digest of the canonical form clears the
difficulty. Purity and determinism hold by construction: `verify` is a
function of `(c, n, i)` (and of the hash primitive `H`). -/
theorem verify_iff (H : List Nat → List Nat) (c : Challenge) (n : Nat)
    (i : List Nat) :
    verify H c n i = true ↔
      i = c.clientIP ∧
        c.difficulty ≤ (countLeadingZeroBits (H (canonicalForm c n)) : Int) := by
  unfold verify
  rw [computeHash_eq_canonical]
  by_cases hip : c.clientIP = i
  · rw [if_neg (by simp [hip])]
    constructor
    · intro h
      exact ⟨hip.symm, of_decide_eq_true h⟩
    · rintro ⟨_, h2⟩
      exact decide_eq_true h2
  · rw [if_pos hip]
    constructor
    · intro h
      cases h
    · rintro ⟨h1, _⟩
      exact absurd h1.symm hip

theorem natDecAux_zero (fuel : Nat) : natDecAux fuel 0 = [] := by
  cases fuel <;> rfl

theorem natDecAux_digits :
    ∀ fuel n, ∀ d ∈ natDecAux fuel n, 48 ≤ d ∧ d ≤ 57 := by
  intro fuel
  induction fuel with
  | zero => intro n d hd; simp [natDecAux] at hd
  | succ f ih =>
    intro n d hd
    by_cases h : n = 0
    · simp [natDecAux, h] at hd
    · simp only [natDecAux, if_neg h] at hd
      rcases List.mem_append.mp hd with h1 | h1
      · exact ih _ d h1
      · have h2 : d = n % 10 + 48 := by simpa using h1
        have h3 : n % 10 < 10 := Nat.mod_lt n (by omega)
        omega

theorem natDecAux_lead :
    ∀ fuel n, 0 < n → n ≤ fuel →
      ∃ d rest, natDecAux fuel n = d :: rest ∧ 49 ≤ d ∧ d ≤ 57 := by
  intro fuel
  induction fuel with
  | zero => intro n h1 h2; omega
  | succ f ih =>
    intro n h1 h2
    have hne : n ≠ 0 := by omega
    by_cases hq : n / 10 = 0
    · refine ⟨n % 10 + 48, [], ?_, ?_, ?_⟩
      · simp only [natDecAux, if_neg hne, hq, natDecAux_zero]
        rfl
      · have : n < 10 := by omega
        have : n % 10 = n := Nat.mod_eq_of_lt this
        omega
      · have h3 : n % 10 < 10 := Nat.mod_lt n (by omega)
        omega
    · have hdiv : n / 10 ≤ f := by
        have : n / 10 < n := Nat.div_lt_self h1 (by omega)
        omega
      obtain ⟨d, rest, heq, h49, h57⟩ := ih (n / 10) (by omega) hdiv
      exact ⟨d, rest ++ [n % 10 + 48], by simp [natDecAux, if_neg hne, heq], h49, h57⟩

/-- C4: the digest Verify compares against the difficulty is the hash of
exactly the byte sequence
`base64_std(data) : decimal(timestamp) : clientIP : decimal(nonce)`
(the canonical form of the spec written as a single concatenation); the nonce is
rendered in decimal with digit bytes only — no sign — and without leading
zeros. The base64 and decimal renderings are the definitions
`base64Encode` (standard alphabet, `=` padding) and `natDecimal`. -/
theorem computeHash_canonicalForm :
    (∀ (H : List Nat → List Nat) (c : Challenge) (n : Nat),
        computeHash H c n = H (canonicalForm c n))
    ∧ (∀ n : Nat, natDecimal n ≠ [] ∧ ∀ d ∈ natDecimal n, 48 ≤ d ∧ d ≤ 57)
    ∧ (∀ n : Nat, 0 < n → (natDecimal n).headD 0 ≠ 48) := by
  refine ⟨computeHash_eq_canonical, fun n => ⟨?_, ?_⟩, fun n hn => ?_⟩
  · unfold natDecimal
    by_cases h : n = 0
    · simp [h]
    · rw [if_neg h]
      obtain ⟨d, rest, heq, -, -⟩ := natDecAux_lead n n (by omega) (le_refl n)
      simp [heq]
  · unfold natDecimal
    by_cases h : n = 0
    · simp [h]
    · rw [if_neg h]
      exact natDecAux_digits n n
  · have hne : n ≠ 0 := by omega
    unfold natDecimal
    rw [if_neg hne]
    obtain ⟨d, rest, heq, h49, -⟩ := natDecAux_lead n n (by omega) (le_refl n)
    rw [heq]
    simp
    omega

/-- Witness for C4: an identity hash on a concrete challenge and nonce, and
the two-digit rendering of 10 not starting with a zero digit. -/
theorem computeHash_canonicalForm_witness :
    computeHash (fun s => s)
        { data := zeros32, timestamp := -7, clientIP := [97], difficulty := 4 } 5 =
      (fun s => s) (canonicalForm
        { data := zeros32, timestamp := -7, clientIP := [97], difficulty := 4 } 5)
    ∧ (natDecimal 10).headD 0 ≠ 48 :=
  ⟨computeHash_canonicalForm.1 _ _ _,
   computeHash_canonicalForm.2.2 10 (by decide)⟩

/-! ## Theorems: the solver -/

theorem decValue_append (l : List Nat) (d : Nat) :
    decValue (l ++ [d]) = decValue l * 10 + (d - 48) := by
  unfold decValue
  rw [List.foldl_append]
  rfl

theorem decValue_natDecAux :
    ∀ fuel n, n ≤ fuel → decValue (natDecAux fuel n) = n := by
  intro fuel
  induction fuel with
  | zero =>
    intro n h
    have h0 : n = 0 := by omega
    subst h0
    rfl
  | succ f ih =>
    intro n h
    by_cases h0 : n = 0
    · subst h0
      rw [natDecAux_zero]
      rfl
    · simp only [natDecAux, if_neg h0]
      rw [decValue_append, ih (n / 10) (by omega)]
      omega

theorem decValue_natDecimal (n : Nat) : decValue (natDecimal n) = n := by
  unfold natDecimal
  by_cases h : n = 0
  · subst h
    rfl
  · rw [if_neg h]
    exact decValue_natDecAux n n (le_refl n)

theorem solveAux_ok (H : List Nat → List Nat) (c : Challenge) :
    ∀ fuel start m, solveAux H c fuel start = .ok m →
      solves H c m ∧ start ≤ m ∧ m < start + fuel
        ∧ ∀ j, start ≤ j → j < m → ¬ solves H c j := by
  intro fuel
  induction fuel with
  | zero => intro start m h; cases h
  | succ f ih =>
    intro start m h
    by_cases hs : solves H c start
    · have hm : m = start := by
        simp only [solveAux] at h
        rw [if_pos hs] at h
        cases h
        rfl
      subst hm
      exact ⟨hs, le_refl m, by omega, fun j h1 h2 => by omega⟩
    · have h2 : solveAux H c f (start + 1) = .ok m := by
        simp only [solveAux] at h
        rwa [if_neg hs] at h
      obtain ⟨hm, hle, hlt, hmin⟩ := ih (start + 1) m h2
      refine ⟨hm, by omega, by omega, fun j h1 hj => ?_⟩
      by_cases hj1 : j = start
      · subst hj1; exact hs
      · exact hmin j (by omega) hj

theorem solveAux_err (H : List Nat → List Nat) (c : Challenge) :
    ∀ fuel start, (∀ j, start ≤ j → j < start + fuel → ¬ solves H c j) →
      solveAux H c fuel start = .error "no solution found" := by
  intro fuel
  induction fuel with
  | zero => intro start _; rfl
  | succ f ih =>
    intro start h
    have hs : ¬ solves H c start := h start (le_refl start) (by omega)
    simp only [solveAux]
    rw [if_neg hs]
    exact ih (start + 1) (fun j h1 h2 => h j (by omega) (by omega))

theorem solveAux_exists_ok (H : List Nat → List Nat) (c : Challenge) :
    ∀ fuel start, (∃ k, start ≤ k ∧ k < start + fuel ∧ solves H c k) →
      ∃ m, solveAux H c fuel start = .ok m := by
  intro fuel
  induction fuel with
  | zero => rintro start ⟨k, h1, h2, -⟩; omega
  | succ f ih =>
    rintro start ⟨k, h1, h2, hk⟩
    by_cases hs : solves H c start
    · refine ⟨start, ?_⟩
      simp only [solveAux]
      rw [if_pos hs]
    · have hne : k ≠ start := fun he => hs (he ▸ hk)
      obtain ⟨m, hm⟩ := ih (start + 1) ⟨k, by omega, by omega, hk⟩
      refine ⟨m, ?_⟩
      simp only [solveAux]
      rwa [if_neg hs]

/-- C7 (amended): whenever some nonce BELOW `2^64 - 1` satisfies the
difficulty predicate — the Go loop `for nonce := range ^uint64(0)` tries
exactly the nonces `0 .. 2^64 - 2` — Solve returns, without error, the least
such nonce, and that nonce passes Verify against the stored client
IP. -/
theorem solve_least (H : List Nat → List Nat) (c : Challenge)
    (h : ∃ n, n < 2 ^ 64 - 1 ∧ solves H c n) :
    solve H c = .ok (Nat.find h)
      ∧ verify H c (Nat.find h) c.clientIP = true := by
  obtain ⟨m, hm⟩ := solveAux_exists_ok H c (2 ^ 64 - 1) 0
    (by obtain ⟨n, h1, h2⟩ := h; exact ⟨n, by omega, by omega, h2⟩)
  obtain ⟨hsol, -, hlt, hmin⟩ := solveAux_ok H c (2 ^ 64 - 1) 0 m hm
  have hfind : Nat.find h = m := by
    have hle : Nat.find h ≤ m := Nat.find_le ⟨by omega, hsol⟩
    rcases Nat.lt_or_ge (Nat.find h) m with hlt2 | hge
    · exact absurd (Nat.find_spec h).2 (hmin _ (Nat.zero_le _) hlt2)
    · omega
  refine ⟨hfind ▸ hm, ?_⟩
  rw [hfind]
  unfold verify
  rw [if_neg (by simp)]
  exact decide_eq_true hsol

/-- Witness for C7: with the constant empty digest and a difficulty-0
challenge, nonce 0 already solves, Solve returns it, and it verifies. -/
theorem solve_least_witness :
    solve trivHash easyChallenge = .ok 0
      ∧ verify trivHash easyChallenge 0 easyChallenge.clientIP = true := by
  have h : ∃ n, n < 2 ^ 64 - 1 ∧ solves trivHash easyChallenge n :=
    ⟨0, by decide, by decide⟩
  have hz : Nat.find h = 0 := Nat.find_eq_zero h |>.mpr ⟨by decide, by decide⟩
  have := solve_least trivHash easyChallenge h
  rwa [hz] at this

/-- C7 counterexample: under `cxHash` the unique nonce meeting the
difficulty is `2^64 - 1`, which the Go loop never reaches, so a satisfying
nonce exists yet Solve reports that no solution was found. The claim as
stated (for SOME satisfying nonce, Solve succeeds with the least one) is
therefore false for this challenge. -/
theorem solve_counterexample :
    (∃ n : Nat, solves cxHash cxChallenge n)
      ∧ solve cxHash cxChallenge = .error "no solution found" := by
  constructor
  · refine ⟨2 ^ 64 - 1, ?_⟩
    unfold solves
    rw [computeHash_eq_canonical]
    unfold cxHash
    rw [if_pos rfl]
    rw [show countLeadingZeroBits (List.replicate 32 0) = 256 from by decide]
    unfold cxChallenge
    decide
  · apply solveAux_err
    intro j h0 hj hsol
    unfold solves at hsol
    rw [computeHash_eq_canonical] at hsol
    unfold cxHash at hsol
    rw [if_neg ?_] at hsol
    · rw [show countLeadingZeroBits [128] = 0 from by decide] at hsol
      unfold cxChallenge at hsol
      simp at hsol
    · intro he
      unfold canonicalForm at he
      have h2 : natDecimal j = natDecimal (2 ^ 64 - 1) :=
        List.append_cancel_left he
      have h3 := congrArg decValue h2
      rw [decValue_natDecimal, decValue_natDecimal] at h3
      omega

/-! ## Theorems: rate limiter -/

theorem evict_evict (w : Int) {u t : Int} (h : u ≤ t) (l : List Int) :
    evict w t (evict w u l) = evict w t l := by
  unfold evict
  rw [List.filter_filter]
  apply List.filter_congr
  intro x _
  by_cases hu : u - x ≤ w
  · simp [hu]
  · have ht : ¬ (t - x ≤ w) := by omega
    simp [hu, ht]

theorem evict_append (w t : Int) (l1 l2 : List Int) :
    evict w t (l1 ++ l2) = evict w t l1 ++ evict w t l2 := by
  unfold evict
  exact List.filter_append l1 l2

theorem rlRun_spaced (w : Int) (maxReq : Nat) (ip : String) :
    ∀ (events : List RLEvent) (s : RLState) (gpre : List Int) (t0 : Int),
      List.Pairwise (· ≤ ·) (t0 :: events.map RLEvent.time) →
      (∀ t : Int, t0 ≤ t → evict w t (s ip) = evict w t gpre) →
      ∀ l1 u l2, grantsOf ip (rlRun w maxReq s events).2 = l1 ++ u :: l2 →
        (evict w u (gpre ++ l1)).length < maxReq := by
  intro events
  induction events with
  | nil =>
    intro s gpre t0 _ _ l1 u l2 h
    have h2 : l1 ++ u :: l2 = [] := h.symm
    exact absurd (List.append_eq_nil.mp h2).2 (List.cons_ne_nil u l2)
  | cons e es ih =>
    intro s gpre t0 hpw hs l1 u l2 hsplit
    rw [List.map_cons] at hpw
    have hpw1 : t0 ≤ e.time :=
      (List.pairwise_cons.mp hpw).1 _ (List.mem_cons_self _ _)
    have hpw2 : List.Pairwise (· ≤ ·) (e.time :: es.map RLEvent.time) :=
      (List.pairwise_cons.mp hpw).2
    match e with
    | .cleanup tc =>
      have hrun : (rlRun w maxReq s (RLEvent.cleanup tc :: es)).2 =
          (rlRun w maxReq (rlCleanup w s tc) es).2 := rfl
      rw [hrun] at hsplit
      refine ih (rlCleanup w s tc) gpre tc hpw2 ?_ l1 u l2 hsplit
      intro t ht
      show evict w t (evict w tc (s ip)) = evict w t gpre
      rw [evict_evict w ht]
      exact hs t (le_trans hpw1 ht)
    | .allow j tj =>
      by_cases hb : maxReq ≤ (evict w tj (s j)).length
      · have hrun : (rlRun w maxReq s (RLEvent.allow j tj :: es)).2 =
            (j, tj, false) :: (rlRun w maxReq s es).2 := by
          simp [rlRun, rlAllow, hb]
        rw [hrun] at hsplit
        have hsk : grantsOf ip ((j, tj, false) :: (rlRun w maxReq s es).2) =
            grantsOf ip (rlRun w maxReq s es).2 := by
          simp [grantsOf]
        rw [hsk] at hsplit
        refine ih s gpre tj hpw2 ?_ l1 u l2 hsplit
        intro t ht
        exact hs t (le_trans hpw1 ht)
      · have hrun : (rlRun w maxReq s (RLEvent.allow j tj :: es)).2 =
            (j, tj, true) ::
              (rlRun w maxReq
                (fun k => if k = j then evict w tj (s j) ++ [tj] else s k) es).2 := by
          simp [rlRun, rlAllow, hb]
        rw [hrun] at hsplit
        by_cases hj : j = ip
        · subst hj
          have hsk : grantsOf j ((j, tj, true) ::
              (rlRun w maxReq
                (fun k => if k = j then evict w tj (s j) ++ [tj] else s k) es).2) =
              tj :: grantsOf j (rlRun w maxReq
                (fun k => if k = j then evict w tj (s j) ++ [tj] else s k) es).2 := by
            simp [grantsOf]
          rw [hsk] at hsplit
          cases l1 with
          | nil =>
            have hu : u = tj := by
              simpa using congrArg (fun l => l.headD 0) hsplit.symm
            subst hu
            rw [List.append_nil, ← hs u hpw1]
            omega
          | cons a l1t =>
            have ha : a = tj := by
              simpa using congrArg (fun l => l.headD 0) hsplit.symm
            subst ha
            have htail : grantsOf j (rlRun w maxReq
                (fun k => if k = j then evict w a (s j) ++ [a] else s k) es).2 =
                l1t ++ u :: l2 := by
              have := congrArg List.tail hsplit
              simpa using this
            have hnext : ∀ t : Int, a ≤ t →
                evict w t ((fun k => if k = j then evict w a (s j) ++ [a]
                  else s k) j) = evict w t (gpre ++ [a]) := by
              intro t ht
              show evict w t (if j = j then evict w a (s j) ++ [a] else s j) =
                evict w t (gpre ++ [a])
              rw [if_pos rfl, evict_append, evict_append, evict_evict w ht,
                hs t (le_trans hpw1 ht)]
            have hrec := ih
              (fun k => if k = j then evict w a (s j) ++ [a] else s k)
              (gpre ++ [a]) a hpw2 hnext l1t u l2 htail
            rw [show gpre ++ a :: l1t = (gpre ++ [a]) ++ l1t from by simp]
            exact hrec
        · have hsk : grantsOf ip ((j, tj, true) ::
              (rlRun w maxReq
                (fun k => if k = j then evict w tj (s j) ++ [tj] else s k) es).2) =
              grantsOf ip (rlRun w maxReq
                (fun k => if k = j then evict w tj (s j) ++ [tj] else s k) es).2 := by
            simp [grantsOf, hj]
          rw [hsk] at hsplit
          refine ih (fun k => if k = j then evict w tj (s j) ++ [tj] else s k)
            gpre tj hpw2 ?_ l1 u l2 hsplit
          intro t ht
          have hij : ip ≠ j := fun h2 => hj h2.symm
          show evict w t (if ip = j then evict w tj (s j) ++ [tj] else s ip) =
            evict w t gpre
          rw [if_neg hij]
          exact hs t (le_trans hpw1 ht)

theorem spaced_bound (w : Int) (maxReq : Nat) :
    ∀ g : List Int, spaced w maxReq g →
      ∀ T : Int, g.countP (fun t => decide (T ≤ t ∧ t ≤ T + w)) ≤ maxReq := by
  intro g
  induction g using List.reverseRecOn with
  | nil => intro _ T; simp
  | append_singleton l a ih =>
    intro hsp T
    have hspl : spaced w maxReq l := by
      intro l1 u l2 h
      exact hsp l1 u (l2 ++ [a]) (by rw [h]; simp)
    rw [List.countP_append]
    by_cases hpa : T ≤ a ∧ a ≤ T + w
    · obtain ⟨hpa1, hpa2⟩ := hpa
      have h1 : List.countP (fun t => decide (T ≤ t ∧ t ≤ T + w)) [a] = 1 := by
        simp [List.countP_cons, hpa1, hpa2]
      have h2 : l.countP (fun t => decide (T ≤ t ∧ t ≤ T + w)) ≤
          (evict w a l).length := by
        unfold evict
        rw [← List.countP_eq_length_filter]
        apply List.countP_mono_left
        intro x _ hpx
        have hx := of_decide_eq_true hpx
        exact decide_eq_true (by omega : a - x ≤ w)
      have h3 := hsp l a [] rfl
      omega
    · have h1 : List.countP (fun t => decide (T ≤ t ∧ t ≤ T + w)) [a] = 0 := by
        simp [List.countP_cons, hpa]
      have h2 := ih hspl T
      omega

/-- C2: one Allow call admits exactly when strictly fewer than `maxReq`
recorded timestamps lie within the window ending at `now`, and on admission
appends `now` to the (evicted) record of the identity; consequently, along any
chronological sequence of calls starting from the empty state, the number of
admissions granted to one identity inside any window `[T, T + w]` never
exceeds `maxReq`. -/
theorem rateLimiter_allow_spec (w : Int) (maxReq : Nat) :
    (∀ (s : RLState) (ip : String) (now : Int),
        ((rlAllow w maxReq s ip now).1 = true ↔
          countRecent w now (s ip) < maxReq)
        ∧ ((rlAllow w maxReq s ip now).1 = true →
            (rlAllow w maxReq s ip now).2 ip = evict w now (s ip) ++ [now]))
    ∧ (∀ events : List RLEvent,
        List.Pairwise (· ≤ ·) (events.map RLEvent.time) →
        ∀ (ip : String) (T : Int),
          (grantsOf ip (rlRun w maxReq rlInit events).2).countP
              (fun t => decide (T ≤ t ∧ t ≤ T + w)) ≤ maxReq) := by
  constructor
  · intro s ip now
    have hcr : countRecent w now (s ip) = (evict w now (s ip)).length :=
      List.countP_eq_length_filter ..
    constructor
    · rw [hcr]
      by_cases hb : maxReq ≤ (evict w now (s ip)).length
      · simp only [rlAllow, if_pos hb]
        constructor
        · intro h2
          cases h2
        · intro h2
          omega
      · simp only [rlAllow, if_neg hb]
        constructor
        · intro _
          omega
        · intro _
          trivial
    · intro h
      by_cases hb : maxReq ≤ (evict w now (s ip)).length
      · simp [rlAllow, hb] at h
      · simp [rlAllow, hb]
  · intro events hpw ip T
    refine spaced_bound w maxReq _ ?_ T
    intro l1 u l2 hsplit
    cases events with
    | nil =>
      have h2 : l1 ++ u :: l2 = [] := hsplit.symm
      exact absurd (List.append_eq_nil.mp h2).2 (List.cons_ne_nil u l2)
    | cons e es =>
      have hpw2 : List.Pairwise (· ≤ ·)
          (e.time :: (e :: es).map RLEvent.time) := by
        rw [List.map_cons] at hpw ⊢
        refine List.pairwise_cons.mpr ⟨?_, hpw⟩
        intro b hb
        rcases List.mem_cons.mp hb with hb1 | hb1
        · exact hb1 ▸ le_refl _
        · exact (List.pairwise_cons.mp hpw).1 b hb1
      have hres := rlRun_spaced w maxReq ip (e :: es) rlInit [] e.time hpw2
        (fun t _ => rfl) l1 u l2 hsplit
      simpa using hres

/-- Witness for C2: three same-identity calls at times 0, 1, 2 with limit 2
and window 10, instantiating the bound at `T = 0`. -/
theorem rateLimiter_allow_spec_witness :
    (grantsOf "a" (rlRun 10 2 rlInit
        [.allow "a" 0, .allow "a" 1, .allow "a" 2]).2).countP
      (fun t => decide ((0 : Int) ≤ t ∧ t ≤ 0 + 10)) ≤ 2 :=
  (rateLimiter_allow_spec 10 2).2
    [.allow "a" 0, .allow "a" 1, .allow "a" 2] (by decide) "a" 0

theorem rlRun_congr (w : Int) (maxReq : Nat) (tc : Int) :
    ∀ (events : List RLEvent) (s1 s2 : RLState),
      (∀ e ∈ events, tc ≤ RLEvent.time e) →
      (∀ (i : String) (t : Int), tc ≤ t → evict w t (s1 i) = evict w t (s2 i)) →
      (rlRun w maxReq s1 events).2 = (rlRun w maxReq s2 events).2 := by
  intro events
  induction events with
  | nil => intro s1 s2 _ _; rfl
  | cons e es ih =>
    intro s1 s2 he hr
    have hte : tc ≤ e.time := he e (List.mem_cons_self ..)
    have hes : ∀ e2 ∈ es, tc ≤ RLEvent.time e2 :=
      fun e2 h2 => he e2 (List.mem_cons_of_mem _ h2)
    match e with
    | .cleanup t =>
      show (rlRun w maxReq (rlCleanup w s1 t) es).2 =
        (rlRun w maxReq (rlCleanup w s2 t) es).2
      refine ih _ _ hes ?_
      intro i u _
      show evict w u (evict w t (s1 i)) = evict w u (evict w t (s2 i))
      rw [hr i t hte]
    | .allow j t =>
      have hv : evict w t (s1 j) = evict w t (s2 j) := hr j t hte
      have hbeq : (rlAllow w maxReq s1 j t).1 = (rlAllow w maxReq s2 j t).1 := by
        simp only [rlAllow, hv]
        split_ifs <;> rfl
      have htails : (rlRun w maxReq (rlAllow w maxReq s1 j t).2 es).2 =
          (rlRun w maxReq (rlAllow w maxReq s2 j t).2 es).2 := by
        refine ih _ _ hes ?_
        intro i u htu
        by_cases hb : maxReq ≤ (evict w t (s1 j)).length
        · have hb2 : maxReq ≤ (evict w t (s2 j)).length := hv ▸ hb
          have e1 : (rlAllow w maxReq s1 j t).2 = s1 := by simp [rlAllow, hb]
          have e2 : (rlAllow w maxReq s2 j t).2 = s2 := by simp [rlAllow, hb2]
          rw [e1, e2]
          exact hr i u htu
        · have hb2 : ¬ maxReq ≤ (evict w t (s2 j)).length := by
            rw [← hv]; exact hb
          have e1 : (rlAllow w maxReq s1 j t).2 =
              fun k => if k = j then evict w t (s1 j) ++ [t] else s1 k := by
            simp [rlAllow, hb]
          have e2 : (rlAllow w maxReq s2 j t).2 =
              fun k => if k = j then evict w t (s2 j) ++ [t] else s2 k := by
            simp [rlAllow, hb2]
          rw [e1, e2]
          show evict w u (if i = j then evict w t (s1 j) ++ [t] else s1 i) =
            evict w u (if i = j then evict w t (s2 j) ++ [t] else s2 i)
          by_cases hij : i = j
          · rw [if_pos hij, if_pos hij, hv]
          · rw [if_neg hij, if_neg hij]
            exact hr i u htu
      show ((j, t, (rlAllow w maxReq s1 j t).1) ::
          (rlRun w maxReq (rlAllow w maxReq s1 j t).2 es).2) =
        ((j, t, (rlAllow w maxReq s2 j t).1) ::
          (rlRun w maxReq (rlAllow w maxReq s2 j t).2 es).2)
      rw [hbeq, htails]

/-- C8: running cleanup between calls never changes the result of any later
Allow call: with every subsequent event at or after the cleanup time (the
monotonic-clock assumption), the full sequence of returned booleans — and
admitted identities and times — is identical with and without the cleanup,
from any starting map state. -/
theorem cleanup_preserves_allow (w : Int) (maxReq : Nat) (s : RLState)
    (tc : Int) (events : List RLEvent)
    (h : ∀ e ∈ events, tc ≤ RLEvent.time e) :
    (rlRun w maxReq (rlCleanup w s tc) events).2 =
      (rlRun w maxReq s events).2 := by
  refine rlRun_congr w maxReq tc events _ _ h ?_
  intro i t ht
  show evict w t (evict w tc (s i)) = evict w t (s i)
  exact evict_evict w ht (s i)

/-- Witness for C8: a cleanup at time 3 does not change the outcome of an
Allow call at time 4 on a state with one recorded timestamp. -/
theorem cleanup_preserves_allow_witness :
    (rlRun 5 1 (rlCleanup 5 rlOneShot 3) [.allow "a" 4]).2 =
      (rlRun 5 1 rlOneShot [.allow "a" 4]).2 :=
  cleanup_preserves_allow 5 1 rlOneShot 3 _ (by
    intro e he
    rw [List.mem_singleton] at he
    subst he
    decide)

/-- C10: a denied Allow call leaves the map state completely unchanged (the
eviction computed during the check is discarded), so it has no effect on any
later Allow call for any identity. -/
theorem allow_denied_frame (w : Int) (maxReq : Nat) (s : RLState)
    (ip : String) (now : Int)
    (h : (rlAllow w maxReq s ip now).1 = false) :
    (rlAllow w maxReq s ip now).2 = s
      ∧ ∀ (ip2 : String) (t2 : Int),
          rlAllow w maxReq ((rlAllow w maxReq s ip now).2) ip2 t2 =
            rlAllow w maxReq s ip2 t2 := by
  have hb : maxReq ≤ (evict w now (s ip)).length := by
    by_contra hb
    simp [rlAllow, hb] at h
  have h2 : (rlAllow w maxReq s ip now).2 = s := by simp [rlAllow, hb]
  exact ⟨h2, fun ip2 t2 => by rw [h2]⟩

/-- Witness for C10: with limit 0 every call is denied and the state is the
one it started from. -/
theorem allow_denied_frame_witness :
    (rlAllow 10 0 rlInit "a" 0).1 = false
      ∧ (rlAllow 10 0 rlInit "a" 0).2 = rlInit :=
  ⟨rfl, (allow_denied_frame 10 0 rlInit "a" 0 rfl).1⟩

end PowServer
